import Mathlib

/-!
Verification of the disk-scout core: the file-system tree builder
(`src/scanner.rs`) and the slice-and-dice treemap layout engine
(`src/treemap.rs`), shallowly embedded in Lean 4.

The scanner performs I/O; we model the file system presented by the OS as an
inductive `FsTree` recording, for each path, what the platform calls return:
a successful metadata read of a file (with its length), a metadata failure,
a directory whose `read_dir` call fails, a directory whose entry iterator
yields an error step, or a directory with a list of entries.  `build_tree`
is then a pure function of that oracle, mirroring the Rust control flow:
`?` on the root's metadata / `read_dir` / iterator steps, and a
skip-and-continue `match` around each recursive child call.

The layout engine is pure; its `f64` arithmetic is embedded over `ℚ`
(exact rational arithmetic), with `u64` sizes as `Nat`.
-/

namespace DiskScout

/-- A platform I/O error (`std::io::Error`), abstracted to its description. -/
structure IOErr where
  msg : String
deriving DecidableEq, Repr

/-- Output tree node of the scanner: `FileSystemNode` from src/scanner.rs
(`name : String`, `size : u64`, `children : Vec<FileSystemNode>`). -/
inductive FileSystemNode : Type where
  | mk (name : String) (size : Nat) (children : List FileSystemNode)

/-- Field accessor for `name`. -/
def FileSystemNode.name : FileSystemNode → String
  | .mk n _ _ => n

/-- Field accessor for `size`. -/
def FileSystemNode.size : FileSystemNode → Nat
  | .mk _ s _ => s

/-- Field accessor for `children`. -/
def FileSystemNode.children : FileSystemNode → List FileSystemNode
  | .mk _ _ cs => cs

/-- The file system as the OS presents it to `build_tree` at one path.
Each constructor records the outcome of the platform calls the Rust code
makes at that path:
* `file name size` — `fs::metadata` succeeds, `is_dir()` is false,
  `metadata.len() = size`;
* `statFail name e` — `fs::metadata` fails with `e`;
* `dirFail name e` — `fs::metadata` succeeds and reports a directory, but
  `fs::read_dir` fails with `e`;
* `iterFail e` — occurs only inside a directory's entry list: the `ReadDir`
  iterator yields `Err(e)` at this step (so the `entry?` in the loop aborts
  the enclosing call);
* `dir name entries` — a directory whose enumeration yields the listed
  entry steps in order. -/
inductive FsTree : Type where
  | file (name : String) (size : Nat)
  | statFail (name : String) (e : IOErr)
  | dirFail (name : String) (e : IOErr)
  | iterFail (e : IOErr)
  | dir (name : String) (entries : List FsTree)

/-- Lexicographic `≤` on character lists.  Rust's `String::cmp` compares
UTF-8 bytes, which for valid UTF-8 orders strings exactly as the
lexicographic order on their code points, i.e. on Lean's `String.data`. -/
def charsLe : List Char → List Char → Bool
  | [], _ => true
  | _ :: _, [] => false
  | a :: as, b :: bs => if a < b then true else if b < a then false else charsLe as bs

/-- Name comparison used by `children.sort_by(|a, b| a.name.cmp(&b.name))`. -/
def nameLe (a b : FileSystemNode) : Prop := charsLe a.name.data b.name.data = true

instance : DecidableRel nameLe := fun a b =>
  instDecidableEqBool (charsLe a.name.data b.name.data) true

/-- Embedding of `children.sort_by(|a, b| a.name.cmp(&b.name))`.
Rust's `sort_by` is a stable sort; any stable sort by the same key produces
the same list, so we model it with insertion sort (which is stable and
computes by `rfl`). -/
def sortByName (cs : List FileSystemNode) : List FileSystemNode :=
  List.insertionSort nameLe cs

mutual

/-- Embedding of `build_tree` (src/scanner.rs).  Mirrors the Rust control
flow exactly: `fs::metadata(path)?` propagates a root metadata failure;
for a directory, `fs::read_dir(path)?` propagates a `read_dir` failure and
the entry loop is `scanEntries`; a file returns a leaf with its length.
The `name` derivation from the path (`file_name` with full-path fallback)
is abstracted into the oracle's `name` field. -/
def build_tree : FsTree → Except IOErr FileSystemNode
  | .file name size => .ok (.mk name size [])
  | .statFail _ e => .error e
  | .dirFail _ e => .error e
  | .iterFail e => .error e
  | .dir name entries =>
      match scanEntries entries with
      | .error e => .error e
      | .ok (children, total) => .ok (.mk name total (sortByName children))

/-- The directory-entry loop of `build_tree`:
`for entry in fs::read_dir(path)? { let entry = entry?; match build_tree(..) { .. } }`.
Returns the accumulated `(children, total_size)` (push order, pre-sort), or
the error of the first failing iterator step (`entry?` aborts the whole
call).  A failing recursive `build_tree` call is skipped (the Rust code
`eprintln!`s and continues; see `scanDiags` for that channel). -/
def scanEntries : List FsTree → Except IOErr (List FileSystemNode × Nat)
  | [] => .ok ([], 0)
  | .iterFail e :: _ => .error e
  | t :: rest =>
      match build_tree t with
      | .ok child =>
          match scanEntries rest with
          | .error e => .error e
          | .ok (cs, tot) => .ok (child :: cs, child.size + tot)
      | .error _ => scanEntries rest

end

mutual

/-- The diagnostics `build_tree` writes to stderr (the `eprintln!` in the
`Err` arm of the child `match`), in emission order: scanning a directory
prints, for each entry reached by the loop, first whatever the recursive
call printed, then — if that call failed — the child's error.  An aborting
iterator step prints nothing itself (its error propagates instead). -/
def scanDiags : FsTree → List IOErr
  | .file _ _ => []
  | .statFail _ _ => []
  | .dirFail _ _ => []
  | .iterFail _ => []
  | .dir _ entries => scanDiagsEntries entries

/-- Diagnostics emitted while the entry loop runs over the given steps. -/
def scanDiagsEntries : List FsTree → List IOErr
  | [] => []
  | .iterFail _ :: _ => []
  | t :: rest =>
      scanDiags t ++
        (match build_tree t with
          | .ok _ => []
          | .error e => [e]) ++
        scanDiagsEntries rest

end

/-- Whether `fs::metadata` succeeds at this path (the root of a scan). -/
def metadataOk : FsTree → Bool
  | .file _ _ => true
  | .statFail _ _ => false
  | .dirFail _ _ => true
  | .iterFail _ => false
  | .dir _ _ => true

/-- An `iterFail` entry step (the `ReadDir` iterator yielding `Err`). -/
def isIterFail : FsTree → Bool
  | .iterFail _ => true
  | _ => false

/-- The root path is fully readable: its metadata read succeeds and, when it
is a directory, its own entry enumeration succeeds in full (`read_dir`
succeeds and no iterator step fails).  Readability of descendants is not
required. -/
def rootReadable : FsTree → Bool
  | .file _ _ => true
  | .statFail _ _ => false
  | .dirFail _ _ => false
  | .iterFail _ => false
  | .dir _ entries => entries.all fun t => !isIterFail t

/-- Whether an `Except` result is a success (the `Ok` case of the Rust
`Result`). -/
def isOkRes {α : Type} : Except IOErr α → Bool
  | .ok _ => true
  | .error _ => false

/-- Whether the scanned path reports itself as a directory
(`metadata.is_dir()`), given its metadata read succeeds. -/
def isDir : FsTree → Bool
  | .dir _ _ => true
  | .dirFail _ _ => true
  | _ => false

mutual

/-- The spec's size invariant on an output tree: every node with children
has `size` equal to the sum of its children's `size`, recursively.
(Childless nodes are files or empty directories; the output type does not
record which.) -/
def sizeOk : FileSystemNode → Bool
  | .mk _ _ [] => true
  | .mk _ sz (c :: cs) => (sz == (((c :: cs).map FileSystemNode.size).sum)) && sizeOkList (c :: cs)

/-- `sizeOk` for every node of a list. -/
def sizeOkList : List FileSystemNode → Bool
  | [] => true
  | c :: cs => sizeOk c && sizeOkList cs

end

mutual

/-- Total size of the leaves (childless nodes) of a tree. -/
def leafSum : FileSystemNode → Nat
  | .mk _ sz [] => sz
  | .mk _ _ (c :: cs) => leafSumList (c :: cs)

/-- Total size of the leaves of a forest. -/
def leafSumList : List FileSystemNode → Nat
  | [] => 0
  | c :: cs => leafSum c + leafSumList cs

end

/-- Adjacent-pairs sortedness by name (ascending, case-sensitive). -/
def chainNameLe : List FileSystemNode → Bool
  | [] => true
  | [_] => true
  | a :: b :: rest => charsLe a.name.data b.name.data && chainNameLe (b :: rest)

mutual

/-- The spec's ordering invariant on an output tree: every node's children
are sorted by name in ascending order, recursively. -/
def sortedOk : FileSystemNode → Bool
  | .mk _ _ cs => chainNameLe cs && sortedOkList cs

/-- `sortedOk` for every node of a list. -/
def sortedOkList : List FileSystemNode → Bool
  | [] => true
  | c :: cs => sortedOk c && sortedOkList cs

end

/-! ## Layout engine (src/treemap.rs) -/

/-- The `Rectangle` struct of src/treemap.rs (`f64` fields), embedded over
exact rationals. -/
structure Rectangle where
  x : ℚ
  y : ℚ
  width : ℚ
  height : ℚ
deriving DecidableEq, Repr

/-- The `TreemapNode` struct of src/treemap.rs: one drawable output unit. -/
structure TreemapNode where
  rect : Rectangle
  name : String
  size : Nat
  depth : Nat
deriving DecidableEq, Repr

/-- The group total `nodes.iter().map(|n| n.size).sum::<u64>()`.  Real disk
sizes stay far below `2^64`, so the `u64` sum is modelled as the exact `Nat`
sum (and its `as f64` conversion as the exact cast into `ℚ`). -/
def sumSizes (ns : List FileSystemNode) : Nat := (ns.map FileSystemNode.size).sum

/-- The rectangle computed for one sibling inside the loop of
`calculate_layout`: vertical slicing takes a proportional strip of the
width at the horizontal cursor, horizontal slicing a proportional strip of
the height at the vertical cursor. -/
def sliceRect (bounds : Rectangle) (v : Bool) (proportion : ℚ) (cx cy : ℚ) : Rectangle :=
  if v then ⟨cx, cy, bounds.width * proportion, bounds.height⟩
  else ⟨cx, cy, bounds.width, bounds.height * proportion⟩

/-- Horizontal cursor after laying out one sibling (`current_x += width`
when slicing vertically, unchanged otherwise). -/
def nextCx (bounds : Rectangle) (v : Bool) (proportion : ℚ) (cx : ℚ) : ℚ :=
  if v then cx + bounds.width * proportion else cx

/-- Vertical cursor after laying out one sibling (`current_y += height`
when slicing horizontally, unchanged otherwise). -/
def nextCy (bounds : Rectangle) (v : Bool) (proportion : ℚ) (cy : ℚ) : ℚ :=
  if v then cy else cy + bounds.height * proportion

/-- The `for node in nodes` loop of `calculate_layout` (src/treemap.rs),
threading the cursor `(cx, cy)`; `total` is the group total computed once
before the loop.  For each sibling it emits the sliced rectangle at the
current `depth` and, when the sibling has children, recurses into them with
the sibling's own rectangle as bounds, the opposite axis, and `depth + 1`
(the recursive `calculate_layout` call is inlined here — its leading
empty-group and zero-total checks are the two inner `if`s — so that the
whole definition is structurally recursive). -/
def layoutRow (total : ℚ) (bounds : Rectangle) (v : Bool) (d : Nat) :
    List FileSystemNode → ℚ → ℚ → List TreemapNode
  | [], _, _ => []
  | .mk nm sz cs :: rest, cx, cy =>
      ⟨sliceRect bounds v ((sz : ℚ) / total) cx cy, nm, sz, d⟩ ::
        ((if cs.isEmpty then []
          else if (sumSizes cs : ℚ) = 0 then []
          else layoutRow (sumSizes cs) (sliceRect bounds v ((sz : ℚ) / total) cx cy) (!v) (d + 1)
                 cs (sliceRect bounds v ((sz : ℚ) / total) cx cy).x
                 (sliceRect bounds v ((sz : ℚ) / total) cx cy).y) ++
          layoutRow total bounds v d rest
            (nextCx bounds v ((sz : ℚ) / total) cx) (nextCy bounds v ((sz : ℚ) / total) cy))

/-- Embedding of `calculate_layout` (src/treemap.rs).  Returns immediately
on an empty group or a zero group total (no division by zero), otherwise
runs the sibling loop with the cursor starting at the bounds origin.  The
source also builds a size-sorted copy `sorted_nodes` of the group which it
never reads afterwards (dead code with no effect on the result); the loop
iterates over `nodes` in their stored order. -/
def calculate_layout (nodes : List FileSystemNode) (bounds : Rectangle)
    (slice_vertically : Bool) (depth : Nat) : List TreemapNode :=
  if nodes.isEmpty then []
  else if (sumSizes nodes : ℚ) = 0 then []
  else layoutRow (sumSizes nodes) bounds slice_vertically depth nodes bounds.x bounds.y

/-- Embedding of `generate_treemap` (src/treemap.rs): starts the recursion
on the root's children with the full bounds, vertical slicing and depth 1;
the root itself is never emitted. -/
def generate_treemap (node : FileSystemNode) (bounds : Rectangle) : List TreemapNode :=
  calculate_layout node.children bounds true 1

/-- One slicing row as the spec's words describe it (spec.md §4.2, steps
4–5): process siblings in order; under vertical slicing each sibling gets
`width = bounds.width * (size / total)`, `height = bounds.height`, at the
horizontal cursor with `y` fixed at `bounds.y`, and the cursor advances by
the emitted width; under horizontal slicing symmetrically.  This is a
second definition written from the spec's words, to be compared with the
embedding `calculate_layout`/`layoutRow` taken from the source. -/
def specRow (total : ℚ) (bounds : Rectangle) (v : Bool) (d : Nat) :
    List FileSystemNode → ℚ → List TreemapNode
  | [], _ => []
  | n :: rest, cursor =>
      let proportion : ℚ := (n.size : ℚ) / total
      if v then
        ⟨⟨cursor, bounds.y, bounds.width * proportion, bounds.height⟩, n.name, n.size, d⟩ ::
          specRow total bounds v d rest (cursor + bounds.width * proportion)
      else
        ⟨⟨bounds.x, cursor, bounds.width, bounds.height * proportion⟩, n.name, n.size, d⟩ ::
          specRow total bounds v d rest (cursor + bounds.height * proportion)

/-- All (name, nesting level) pairs of the nodes of a forest, where the
forest's own roots sit at level `d` and children one level deeper. -/
def depthList : List FileSystemNode → Nat → List (String × Nat)
  | [], _ => []
  | .mk nm _ cs :: rest, d => (nm, d) :: (depthList cs (d + 1) ++ depthList rest d)

/-- Axis-aligned containment of `inner` in `outer`. -/
def rectContains (outer inner : Rectangle) : Prop :=
  outer.x ≤ inner.x ∧ outer.y ≤ inner.y ∧
    inner.x + inner.width ≤ outer.x + outer.width ∧
    inner.y + inner.height ≤ outer.y + outer.height

/-! ## Order facts about the name comparison -/

theorem charsLe_total : ∀ as bs : List Char, charsLe as bs = true ∨ charsLe bs as = true
  | [], _ => Or.inl rfl
  | _ :: _, [] => Or.inr rfl
  | a :: as, b :: bs => by
      rcases lt_trichotomy a b with h | h | h
      · left; simp [charsLe, h]
      · subst h
        rcases charsLe_total as bs with h' | h'
        · left; simp [charsLe, h']
        · right; simp [charsLe, h']
      · right; simp [charsLe, h]

theorem charsLe_trans :
    ∀ as bs cs : List Char, charsLe as bs = true → charsLe bs cs = true → charsLe as cs = true
  | [], _, _, _, _ => rfl
  | _ :: _, [], _, h1, _ => by simp [charsLe] at h1
  | _ :: _, _ :: _, [], _, h2 => by simp [charsLe] at h2
  | a :: as, b :: bs, c :: cs, h1, h2 => by
      rcases lt_trichotomy a b with hab | hab | hab
      · rcases lt_trichotomy b c with hbc | hbc | hbc
        · simp [charsLe, lt_trans hab hbc]
        · subst hbc; simp [charsLe, hab]
        · simp [charsLe, asymm hbc, hbc] at h2
      · subst hab
        rcases lt_trichotomy a c with hbc | hbc | hbc
        · simp [charsLe, hbc]
        · subst hbc
          simp only [charsLe, lt_self_iff_false, if_false] at h1 h2 ⊢
          exact charsLe_trans as bs cs h1 h2
        · simp [charsLe, asymm hbc, hbc] at h2
      · simp [charsLe, asymm hab, hab] at h1

theorem nameLe_total : ∀ a b : FileSystemNode, nameLe a b ∨ nameLe b a := fun a b =>
  charsLe_total a.name.data b.name.data

theorem nameLe_trans : ∀ a b c : FileSystemNode, nameLe a b → nameLe b c → nameLe a c :=
  fun a b c => charsLe_trans a.name.data b.name.data c.name.data

/-! ## Scanner lemmas -/

/-- A non-aborting entry step (anything but an iterator failure) never
changes whether the whole loop succeeds: whatever `build_tree` does on it,
the loop continues. -/
theorem scanEntries_cons_isOk (t : FsTree) (rest : List FsTree) (h : isIterFail t = false) :
    isOkRes (scanEntries (t :: rest)) = isOkRes (scanEntries rest) := by
  cases t with
  | iterFail e => simp [isIterFail] at h
  | file nm sz =>
      simp only [scanEntries, build_tree]
      cases hr : scanEntries rest with
      | error e => rfl
      | ok p => cases p with
        | mk cs tot => rfl
  | statFail nm e => rfl
  | dirFail nm e => rfl
  | dir nm entries =>
      simp only [scanEntries, build_tree]
      cases hb : scanEntries entries with
      | error e => rfl
      | ok p =>
          cases p with
          | mk cs tot =>
              cases hr : scanEntries rest with
              | error e => rfl
              | ok q => cases q with
                | mk cs2 tot2 => rfl

theorem scanEntries_isOk (es : List FsTree) :
    isOkRes (scanEntries es) = es.all fun t => !isIterFail t := by
  induction es with
  | nil => rfl
  | cons t rest ih =>
      cases hi : isIterFail t with
      | true =>
          cases t with
          | iterFail e => simp [scanEntries, isOkRes, hi]
          | file nm sz => simp [isIterFail] at hi
          | statFail nm e => simp [isIterFail] at hi
          | dirFail nm e => simp [isIterFail] at hi
          | dir nm entries => simp [isIterFail] at hi
      | false => rw [scanEntries_cons_isOk t rest hi, ih, List.all_cons, hi]; rfl

/-- C1, amended: the result is `Ok` exactly when the root itself is fully
readable (metadata read succeeds and, for a directory, the root's own entry
enumeration succeeds in full); descendant failures never make it `error`. -/
theorem buildTree_isOk_iff_rootReadable (fs : FsTree) :
    isOkRes (build_tree fs) = rootReadable fs := by
  cases fs with
  | file nm sz => rfl
  | statFail nm e => rfl
  | dirFail nm e => rfl
  | iterFail e => rfl
  | dir nm entries =>
      have h := scanEntries_isOk entries
      simp only [build_tree, rootReadable]
      cases hs : scanEntries entries with
      | error e => simpa [hs, isOkRes] using h
      | ok p => cases p with
        | mk cs tot => simpa [hs, isOkRes] using h

/-- C1, as stated, is false on the code: a root directory whose metadata
read succeeds but whose own `read_dir` call fails (e.g. permission denied
on opening the directory, while `stat` through the parent succeeds) makes
`build_tree` return that error to the caller, because the code applies `?`
to `fs::read_dir(path)` at the root level. -/
theorem C1_counterexample_dirFail_root :
    metadataOk (FsTree.dirFail "d" ⟨"EACCES"⟩) = true ∧
      isOkRes (build_tree (FsTree.dirFail "d" ⟨"EACCES"⟩)) = false := by
  constructor
  · rfl
  · rfl

/-- C1, amended: `build_tree` returns `Ok` exactly when the root itself is
fully readable — its metadata read succeeds and, when it is a directory,
its own entry enumeration succeeds in full (`read_dir` succeeds and no
iterator step of the root's enumeration fails).  Failures while processing
descendant entries, including a descendant directory's enumeration
failures, never cause the call to return an error. -/
theorem C1_amended_ok_iff_root_readable (fs : FsTree) :
    isOkRes (build_tree fs) = rootReadable fs :=
  buildTree_isOk_iff_rootReadable fs

/-! ## C2: a failing descendant entry is skipped, siblings kept -/

/-- Removing one non-aborting entry whose recursive scan fails does not
change the result of the entry loop: the `Err` arm of the `match` only
logs and continues. -/
theorem scanEntries_skip (t' : FsTree) (e : IOErr)
    (ht : build_tree t' = .error e) (hi : isIterFail t' = false) :
    ∀ (es₁ es₂ : List FsTree),
      scanEntries (es₁ ++ t' :: es₂) = scanEntries (es₁ ++ es₂) := by
  intro es₁
  induction es₁ with
  | nil =>
      intro es₂
      rw [List.nil_append, List.nil_append]
      cases t' with
      | iterFail e' => simp [isIterFail] at hi
      | file nm sz => simp [build_tree] at ht
      | statFail nm e' => simp only [scanEntries, build_tree]
      | dirFail nm e' => simp only [scanEntries, build_tree]
      | dir nm entries => simp only [scanEntries, ht]
  | cons u es₁ ih =>
      intro es₂
      rw [List.cons_append, List.cons_append]
      have h := ih es₂
      cases u with
      | iterFail e' => simp only [scanEntries]
      | file nm sz => simp only [scanEntries, build_tree, h]
      | statFail nm e' => simp only [scanEntries, build_tree, h]
      | dirFail nm e' => simp only [scanEntries, build_tree, h]
      | dir nm entries => simp only [scanEntries, build_tree, h]

/-- The failing entry's error is among the diagnostics printed while
scanning the enclosing directory's entries, provided the loop reaches it
(no earlier iterator step aborts). -/
theorem scanDiagsEntries_mem (t' : FsTree) (e : IOErr)
    (ht : build_tree t' = .error e) (hi : isIterFail t' = false) :
    ∀ (es₁ es₂ : List FsTree), (∀ x ∈ es₁, isIterFail x = false) →
      e ∈ scanDiagsEntries (es₁ ++ t' :: es₂) := by
  intro es₁
  induction es₁ with
  | nil =>
      intro es₂ _
      have hstep : scanDiagsEntries (t' :: es₂) =
          scanDiags t' ++ [e] ++ scanDiagsEntries es₂ := by
        cases t' with
        | iterFail e' => simp [isIterFail] at hi
        | file nm sz => simp [build_tree] at ht
        | statFail nm e' => simp [scanDiagsEntries, ht]
        | dirFail nm e' => simp [scanDiagsEntries, ht]
        | dir nm entries => simp [scanDiagsEntries, ht]
      rw [List.nil_append, hstep]
      simp
  | cons u es₁ ih =>
      intro es₂ hall
      have hu : isIterFail u = false := hall u (by simp)
      have ihm : e ∈ scanDiagsEntries (es₁ ++ t' :: es₂) :=
        ih es₂ fun x hx => hall x (by simp [hx])
      have hstep : ∀ tail, scanDiagsEntries (u :: tail) =
          scanDiags u ++
            (match build_tree u with | .ok _ => [] | .error e' => [e']) ++
            scanDiagsEntries tail := by
        intro tail
        cases u with
        | iterFail e' => simp [isIterFail] at hu
        | file nm sz => simp [scanDiagsEntries]
        | statFail nm e' => simp [scanDiagsEntries]
        | dirFail nm e' => simp [scanDiagsEntries]
        | dir nm entries => simp [scanDiagsEntries]
      rw [List.cons_append, hstep]
      exact List.mem_append.mpr (Or.inr ihm)

/-- C2: a failure to read a single descendant entry (its recursive
`build_tree` call returning an error) only omits that entry: the scan of
the enclosing directory returns exactly what it would return had the entry
not been there — all readable siblings and the ancestors appear unchanged,
with the directory size accordingly totalling only the successfully read
entries — and the entry's error is emitted on the diagnostic channel
(stderr), not returned to the caller. -/
theorem C2_failing_entry_skipped (nm : String) (es₁ es₂ : List FsTree)
    (t' : FsTree) (e : IOErr)
    (ht : build_tree t' = .error e) (hi : isIterFail t' = false)
    (hreach : ∀ x ∈ es₁, isIterFail x = false) :
    build_tree (FsTree.dir nm (es₁ ++ t' :: es₂)) =
        build_tree (FsTree.dir nm (es₁ ++ es₂)) ∧
      e ∈ scanDiags (FsTree.dir nm (es₁ ++ t' :: es₂)) := by
  constructor
  · simp only [build_tree, scanEntries_skip t' e ht hi es₁ es₂]
  · exact scanDiagsEntries_mem t' e ht hi es₁ es₂ hreach

/-- Witness for C2 at a concrete directory: entry `x` is unreadable
(metadata fails) between readable files `a` and `b`. -/
theorem C2_witness :
    build_tree (FsTree.dir "d"
        ([FsTree.file "a" 1] ++ FsTree.statFail "x" ⟨"EPERM"⟩ :: [FsTree.file "b" 2])) =
        build_tree (FsTree.dir "d" ([FsTree.file "a" 1] ++ [FsTree.file "b" 2])) ∧
      IOErr.mk "EPERM" ∈ scanDiags (FsTree.dir "d"
        ([FsTree.file "a" 1] ++ FsTree.statFail "x" ⟨"EPERM"⟩ :: [FsTree.file "b" 2])) :=
  C2_failing_entry_skipped "d" [FsTree.file "a" 1] [FsTree.file "b" 2]
    (FsTree.statFail "x" ⟨"EPERM"⟩) ⟨"EPERM"⟩ rfl rfl
    (by intro x hx; simp at hx; subst hx; rfl)

/-! ## C3: directory sizes are exact sums -/

/-- Unfolding of the entry loop at a non-aborting head entry. -/
theorem scanEntries_cons (t : FsTree) (rest : List FsTree) (h : isIterFail t = false) :
    scanEntries (t :: rest) =
      match build_tree t with
      | .ok child =>
          match scanEntries rest with
          | .error e => .error e
          | .ok (cs, tot) => .ok (child :: cs, child.size + tot)
      | .error _ => scanEntries rest := by
  cases t with
  | iterFail e => simp [isIterFail] at h
  | file nm sz => rfl
  | statFail nm e => rfl
  | dirFail nm e => rfl
  | dir nm entries => rfl

theorem sizeOkList_iff (l : List FileSystemNode) :
    sizeOkList l = true ↔ ∀ x ∈ l, sizeOk x = true := by
  induction l with
  | nil => simp [sizeOkList]
  | cons c cs ih => simp [sizeOkList, Bool.and_eq_true, ih]

theorem sortByName_perm (cs : List FileSystemNode) : (sortByName cs).Perm cs :=
  List.perm_insertionSort nameLe cs

theorem sum_sortByName (cs : List FileSystemNode) :
    ((sortByName cs).map FileSystemNode.size).sum = (cs.map FileSystemNode.size).sum :=
  List.Perm.sum_eq ((sortByName_perm cs).map FileSystemNode.size)

theorem sizeOkList_sortByName (cs : List FileSystemNode) (h : sizeOkList cs = true) :
    sizeOkList (sortByName cs) = true := by
  rw [sizeOkList_iff] at h ⊢
  intro x hx
  exact h x ((sortByName_perm cs).mem_iff.mp hx)

theorem sizeOk_mk (nm : String) (sz : Nat) (cs : List FileSystemNode)
    (h1 : sz = (cs.map FileSystemNode.size).sum) (h2 : sizeOkList cs = true) :
    sizeOk (.mk nm sz cs) = true := by
  cases cs with
  | nil => rfl
  | cons c cs' => simp [sizeOk, h1, h2]

mutual

theorem build_tree_sizeOk :
    ∀ (t : FsTree) (n : FileSystemNode), build_tree t = .ok n → sizeOk n = true
  | .file nm sz, n, h => by
      simp only [build_tree, Except.ok.injEq] at h
      subst h
      rfl
  | .statFail nm e, n, h => by simp [build_tree] at h
  | .dirFail nm e, n, h => by simp [build_tree] at h
  | .iterFail e, n, h => by simp [build_tree] at h
  | .dir nm entries, n, h => by
      have ih := scanEntries_sizeOk entries
      simp only [build_tree] at h
      cases hs : scanEntries entries with
      | error e => rw [hs] at h; simp at h
      | ok p =>
          cases p with
          | mk cs tot =>
              rw [hs] at h
              simp only [Except.ok.injEq] at h
              subst h
              obtain ⟨hl, hsum⟩ := ih cs tot hs
              exact sizeOk_mk nm tot (sortByName cs)
                (by rw [sum_sortByName]; exact hsum) (sizeOkList_sortByName cs hl)

theorem scanEntries_sizeOk :
    ∀ (es : List FsTree) (cs : List FileSystemNode) (tot : Nat),
      scanEntries es = .ok (cs, tot) →
        sizeOkList cs = true ∧ tot = (cs.map FileSystemNode.size).sum
  | [], cs, tot, h => by
      simp only [scanEntries, Except.ok.injEq, Prod.mk.injEq] at h
      obtain ⟨h1, h2⟩ := h
      subst h1; subst h2
      exact ⟨rfl, rfl⟩
  | t :: rest, cs, tot, h => by
      have hrest := scanEntries_sizeOk rest
      have hhead := build_tree_sizeOk t
      cases hit : isIterFail t with
      | true =>
          cases t with
          | iterFail e => simp [scanEntries] at h
          | file nm sz => simp [isIterFail] at hit
          | statFail nm e => simp [isIterFail] at hit
          | dirFail nm e => simp [isIterFail] at hit
          | dir nm entries => simp [isIterFail] at hit
      | false =>
          rw [scanEntries_cons t rest hit] at h
          cases hb : build_tree t with
          | error e => rw [hb] at h; exact hrest cs tot h
          | ok child =>
              rw [hb] at h
              cases hr : scanEntries rest with
              | error e => rw [hr] at h; simp at h
              | ok p =>
                  cases p with
                  | mk cs' tot' =>
                      rw [hr] at h
                      simp only [Except.ok.injEq, Prod.mk.injEq] at h
                      obtain ⟨hcs, htot⟩ := h
                      subst hcs; subst htot
                      obtain ⟨hl, hsum⟩ := hrest cs' tot' hr
                      refine ⟨?_, ?_⟩
                      · simp [sizeOkList, hhead child hb, hl]
                      · simp [List.map_cons, List.sum_cons, hsum]

end

mutual

theorem size_eq_leafSum :
    ∀ (n : FileSystemNode), sizeOk n = true → FileSystemNode.size n = leafSum n
  | .mk nm sz [], _ => rfl
  | .mk nm sz (c :: cs), h => by
      simp only [sizeOk, Bool.and_eq_true, beq_iff_eq] at h
      obtain ⟨hsz, hl⟩ := h
      have hs := sum_eq_leafSumList (c :: cs) hl
      show sz = leafSum (.mk nm sz (c :: cs))
      rw [hsz, hs]
      rfl

theorem sum_eq_leafSumList :
    ∀ (l : List FileSystemNode), sizeOkList l = true →
      (l.map FileSystemNode.size).sum = leafSumList l
  | [], _ => rfl
  | c :: cs, h => by
      simp only [sizeOkList, Bool.and_eq_true] at h
      obtain ⟨h1, h2⟩ := h
      simp only [List.map_cons, List.sum_cons, leafSumList]
      rw [size_eq_leafSum c h1, sum_eq_leafSumList cs h2]

end

/-- C3: in every tree returned successfully, every node with children has
`size` equal to the exact sum of its children's `size` (so `size` equals
the total leaf size throughout), and when the scanned root is a directory
its node's size is the sum of its children's sizes (also when that
children list is empty). -/
theorem C3_directory_sizes (fs : FsTree) (n : FileSystemNode)
    (h : build_tree fs = .ok n) :
    sizeOk n = true ∧ FileSystemNode.size n = leafSum n ∧
      (isDir fs = true →
        FileSystemNode.size n = (n.children.map FileSystemNode.size).sum) := by
  have h1 := build_tree_sizeOk fs n h
  refine ⟨h1, size_eq_leafSum n h1, ?_⟩
  intro hd
  cases fs with
  | file nm sz => simp [isDir] at hd
  | statFail nm e => simp [isDir] at hd
  | iterFail e => simp [isDir] at hd
  | dirFail nm e => simp [build_tree] at h
  | dir nm entries =>
      simp only [build_tree] at h
      cases hs : scanEntries entries with
      | error e => rw [hs] at h; simp at h
      | ok p =>
          cases p with
          | mk cs tot =>
              rw [hs] at h
              simp only [Except.ok.injEq] at h
              subst h
              obtain ⟨_, hsum⟩ := scanEntries_sizeOk entries cs tot hs
              show tot = ((sortByName cs).map FileSystemNode.size).sum
              rw [sum_sortByName]
              exact hsum

/-- Witness for C3 at the spec's concrete scenario (`a.txt` of 10 bytes and
`sub/b.txt` of 20 bytes). -/
theorem C3_witness :
    sizeOk (FileSystemNode.mk "root" 30
        [.mk "a.txt" 10 [], .mk "sub" 20 [.mk "b.txt" 20 []]]) = true ∧
      FileSystemNode.size (FileSystemNode.mk "root" 30
        [.mk "a.txt" 10 [], .mk "sub" 20 [.mk "b.txt" 20 []]]) =
        leafSum (FileSystemNode.mk "root" 30
          [.mk "a.txt" 10 [], .mk "sub" 20 [.mk "b.txt" 20 []]]) ∧
      (isDir (FsTree.dir "root" [.dir "sub" [.file "b.txt" 20], .file "a.txt" 10]) = true →
        FileSystemNode.size (FileSystemNode.mk "root" 30
          [.mk "a.txt" 10 [], .mk "sub" 20 [.mk "b.txt" 20 []]]) =
          ((FileSystemNode.mk "root" 30
            [.mk "a.txt" 10 [], .mk "sub" 20 [.mk "b.txt" 20 []]]).children.map
              FileSystemNode.size).sum) :=
  C3_directory_sizes (FsTree.dir "root" [.dir "sub" [.file "b.txt" 20], .file "a.txt" 10])
    (FileSystemNode.mk "root" 30 [.mk "a.txt" 10 [], .mk "sub" 20 [.mk "b.txt" 20 []]]) rfl

/-! ## C4: children sorted by name -/

theorem chainNameLe_of_pairwise :
    ∀ l : List FileSystemNode, List.Pairwise nameLe l → chainNameLe l = true
  | [], _ => rfl
  | [_], _ => rfl
  | a :: b :: rest, h => by
      rw [List.pairwise_cons] at h
      have hab : nameLe a b := h.1 b (by simp)
      have hrest := chainNameLe_of_pairwise (b :: rest) h.2
      simp only [chainNameLe, Bool.and_eq_true]
      exact ⟨hab, hrest⟩

theorem sortedOkList_iff (l : List FileSystemNode) :
    sortedOkList l = true ↔ ∀ x ∈ l, sortedOk x = true := by
  induction l with
  | nil => simp [sortedOkList]
  | cons c cs ih => simp [sortedOkList, Bool.and_eq_true, ih]

theorem sortedOkList_sortByName (cs : List FileSystemNode) (h : sortedOkList cs = true) :
    sortedOkList (sortByName cs) = true := by
  rw [sortedOkList_iff] at h ⊢
  intro x hx
  exact h x ((sortByName_perm cs).mem_iff.mp hx)

theorem chainNameLe_sortByName (cs : List FileSystemNode) :
    chainNameLe (sortByName cs) = true := by
  haveI : IsTotal FileSystemNode nameLe := ⟨nameLe_total⟩
  haveI : IsTrans FileSystemNode nameLe := ⟨nameLe_trans⟩
  exact chainNameLe_of_pairwise _ (List.sorted_insertionSort nameLe cs)

mutual

theorem build_tree_sortedOk :
    ∀ (t : FsTree) (n : FileSystemNode), build_tree t = .ok n → sortedOk n = true
  | .file nm sz, n, h => by
      simp only [build_tree, Except.ok.injEq] at h
      subst h
      rfl
  | .statFail nm e, n, h => by simp [build_tree] at h
  | .dirFail nm e, n, h => by simp [build_tree] at h
  | .iterFail e, n, h => by simp [build_tree] at h
  | .dir nm entries, n, h => by
      have ih := scanEntries_sortedOk entries
      simp only [build_tree] at h
      cases hs : scanEntries entries with
      | error e => rw [hs] at h; simp at h
      | ok p =>
          cases p with
          | mk cs tot =>
              rw [hs] at h
              simp only [Except.ok.injEq] at h
              subst h
              have hl := ih cs tot hs
              simp only [sortedOk, Bool.and_eq_true]
              exact ⟨chainNameLe_sortByName cs, sortedOkList_sortByName cs hl⟩

theorem scanEntries_sortedOk :
    ∀ (es : List FsTree) (cs : List FileSystemNode) (tot : Nat),
      scanEntries es = .ok (cs, tot) → sortedOkList cs = true
  | [], cs, tot, h => by
      simp only [scanEntries, Except.ok.injEq, Prod.mk.injEq] at h
      obtain ⟨h1, _⟩ := h
      subst h1
      rfl
  | t :: rest, cs, tot, h => by
      have hrest := scanEntries_sortedOk rest
      have hhead := build_tree_sortedOk t
      cases hit : isIterFail t with
      | true =>
          cases t with
          | iterFail e => simp [scanEntries] at h
          | file nm sz => simp [isIterFail] at hit
          | statFail nm e => simp [isIterFail] at hit
          | dirFail nm e => simp [isIterFail] at hit
          | dir nm entries => simp [isIterFail] at hit
      | false =>
          rw [scanEntries_cons t rest hit] at h
          cases hb : build_tree t with
          | error e => rw [hb] at h; exact hrest cs tot h
          | ok child =>
              rw [hb] at h
              cases hr : scanEntries rest with
              | error e => rw [hr] at h; simp at h
              | ok p =>
                  cases p with
                  | mk cs' tot' =>
                      rw [hr] at h
                      simp only [Except.ok.injEq, Prod.mk.injEq] at h
                      obtain ⟨hcs, _⟩ := h
                      subst hcs
                      simp [sortedOkList, hhead child hb, hrest cs' tot' hr]

end

/-- C4: in every tree returned successfully by `build_tree`, every
directory node's children sequence is sorted by name in case-sensitive
ascending order (lexicographic on code points, as Rust's byte-wise
`String::cmp` orders valid UTF-8), independent of the enumeration order
the file system produced. -/
theorem C4_children_sorted (fs : FsTree) (n : FileSystemNode)
    (h : build_tree fs = .ok n) : sortedOk n = true :=
  build_tree_sortedOk fs n h

/-- Witness for C4: a directory whose entries arrive unsorted
(`sub` before `a.txt`) still yields name-sorted children. -/
theorem C4_witness :
    sortedOk (FileSystemNode.mk "root" 30
      [.mk "a.txt" 10 [], .mk "sub" 20 [.mk "b.txt" 20 []]]) = true :=
  C4_children_sorted
    (FsTree.dir "root" [.dir "sub" [.file "b.txt" 20], .file "a.txt" 10])
    (FileSystemNode.mk "root" 30 [.mk "a.txt" 10 [], .mk "sub" 20 [.mk "b.txt" 20 []]]) rfl

/-! ## Layout engine lemmas -/

theorem sumSizes_nil : sumSizes [] = 0 := rfl

theorem sumSizes_cons (n : FileSystemNode) (ns : List FileSystemNode) :
    sumSizes (n :: ns) = n.size + sumSizes ns := by
  simp [sumSizes]

/-- Every node a row emits sits at the row's depth or deeper. -/
theorem layoutRow_depth_le :
    ∀ (ns : List FileSystemNode) (total : ℚ) (b : Rectangle) (v : Bool) (d : Nat)
      (cx cy : ℚ) (t : TreemapNode), t ∈ layoutRow total b v d ns cx cy → d ≤ t.depth
  | [], _, _, _, _, _, _, t, ht => by simp [layoutRow] at ht
  | .mk nm sz cs :: rest, total, b, v, d, cx, cy, t, ht => by
      simp only [layoutRow, List.mem_cons, List.mem_append] at ht
      rcases ht with h1 | h2 | h3
      · subst h1; exact le_refl d
      · by_cases he : cs.isEmpty
        · simp [he] at h2
        · by_cases hz : (sumSizes cs : ℚ) = 0
          · simp [he, hz] at h2
          · simp only [he, hz, if_false] at h2
            have := layoutRow_depth_le cs (sumSizes cs) _ (!v) (d + 1) _ _ t h2
            omega
      · exact layoutRow_depth_le rest total b v d _ _ t h3

/-- Every node a row emits names a node of the forest at the matching
nesting level. -/
theorem layoutRow_mem_depthList :
    ∀ (ns : List FileSystemNode) (total : ℚ) (b : Rectangle) (v : Bool) (d : Nat)
      (cx cy : ℚ) (t : TreemapNode), t ∈ layoutRow total b v d ns cx cy →
        (t.name, t.depth) ∈ depthList ns d
  | [], _, _, _, _, _, _, t, ht => by simp [layoutRow] at ht
  | .mk nm sz cs :: rest, total, b, v, d, cx, cy, t, ht => by
      simp only [layoutRow, List.mem_cons, List.mem_append] at ht
      simp only [depthList, List.mem_cons, List.mem_append]
      rcases ht with h1 | h2 | h3
      · subst h1; exact Or.inl rfl
      · by_cases he : cs.isEmpty
        · simp [he] at h2
        · by_cases hz : (sumSizes cs : ℚ) = 0
          · simp [he, hz] at h2
          · simp only [he, hz, if_false] at h2
            exact Or.inr (Or.inl (layoutRow_mem_depthList cs (sumSizes cs) _ (!v) (d + 1) _ _ t h2))
      · exact Or.inr (Or.inr (layoutRow_mem_depthList rest total b v d _ _ t h3))

theorem filter_depth_nil (L : List TreemapNode) (d : Nat)
    (h : ∀ t ∈ L, d + 1 ≤ t.depth) :
    L.filter (fun t => t.depth == d) = [] := by
  rw [List.filter_eq_nil_iff]
  intro t ht
  have := h t ht
  simp only [beq_iff_eq]
  omega

/-- The sub-layout of a sibling's children only emits nodes strictly below
the sibling's depth. -/
theorem childPart_depth (cs : List FileSystemNode) (r : Rectangle) (v : Bool) (d : Nat) :
    ∀ t ∈ (if cs.isEmpty then []
            else if (sumSizes cs : ℚ) = 0 then []
            else layoutRow (sumSizes cs) r v (d + 1) cs r.x r.y), d + 1 ≤ t.depth := by
  intro t ht
  by_cases he : cs.isEmpty
  · simp [he] at ht
  · by_cases hz : (sumSizes cs : ℚ) = 0
    · simp [he, hz] at ht
    · simp only [he, hz, if_false] at ht
      exact layoutRow_depth_le cs (sumSizes cs) r v (d + 1) r.x r.y t ht

/-- Restricted to its own depth, the loop's output is exactly the row the
spec describes: one proportional slice per sibling, in stored order, with
the cursor advancing by each emitted extent. -/
theorem layoutRow_filter_depth :
    ∀ (ns : List FileSystemNode) (total : ℚ) (b : Rectangle) (v : Bool) (d : Nat) (cx cy : ℚ),
      (v = true → cy = b.y) → (v = false → cx = b.x) →
      (layoutRow total b v d ns cx cy).filter (fun t => t.depth == d) =
        specRow total b v d ns (if v then cx else cy)
  | [], total, b, v, d, cx, cy, _, _ => by simp [layoutRow, specRow]
  | .mk nm sz cs :: rest, total, b, v, d, cx, cy, hv, hh => by
      have hchild := filter_depth_nil _ d
        (childPart_depth cs (sliceRect b v ((sz : ℚ) / total) cx cy) (!v) d)
      cases v with
      | true =>
          have hcy : cy = b.y := hv rfl
          subst hcy
          have ih := layoutRow_filter_depth rest total b true d
            (nextCx b true ((sz : ℚ) / total) cx) (nextCy b true ((sz : ℚ) / total) b.y)
            (fun _ => rfl) (fun hfx => by simp at hfx)
          simp only [layoutRow, List.filter_cons, List.filter_append, hchild, ih,
            List.nil_append]
          simp [specRow, sliceRect, nextCx, nextCy, FileSystemNode.size, FileSystemNode.name]
      | false =>
          have hcx : cx = b.x := hh rfl
          subst hcx
          have ih := layoutRow_filter_depth rest total b false d
            (nextCx b false ((sz : ℚ) / total) b.x) (nextCy b false ((sz : ℚ) / total) cy)
            (fun hfx => by simp at hfx) (fun _ => rfl)
          simp only [layoutRow, List.filter_cons, List.filter_append, hchild, ih,
            List.nil_append]
          simp [specRow, sliceRect, nextCx, nextCy, FileSystemNode.size, FileSystemNode.name]

theorem specRow_names :
    ∀ (ns : List FileSystemNode) (total : ℚ) (b : Rectangle) (v : Bool) (d : Nat) (cursor : ℚ),
      (specRow total b v d ns cursor).map (fun t => (t.name, t.size)) =
        ns.map fun n => (n.name, n.size)
  | [], _, _, _, _, _ => rfl
  | n :: rest, total, b, v, d, cursor => by
      cases v with
      | true =>
          simp only [specRow, if_true, List.map_cons]
          rw [specRow_names rest]
      | false =>
          simp only [specRow, Bool.false_eq_true, if_false, List.map_cons]
          rw [specRow_names rest]

theorem specRow_widths_vertical :
    ∀ (ns : List FileSystemNode) (total : ℚ) (b : Rectangle) (d : Nat) (cursor : ℚ),
      (specRow total b true d ns cursor).map (fun t => t.rect.width) =
        ns.map fun n => b.width * ((n.size : ℚ) / total)
  | [], _, _, _, _ => rfl
  | n :: rest, total, b, d, cursor => by
      simp only [specRow, if_true, List.map_cons]
      rw [specRow_widths_vertical rest]

theorem sum_map_proportion (w total : ℚ) :
    ∀ ns : List FileSystemNode,
      (ns.map fun n => w * ((n.size : ℚ) / total)).sum = w * ((sumSizes ns : ℚ) / total)
  | [] => by simp [sumSizes]
  | n :: rest => by
      rw [List.map_cons, List.sum_cons, sum_map_proportion w total rest, sumSizes_cons]
      push_cast
      ring

/-- Group total as a rational is zero exactly when the `u64` total is. -/
theorem sumSizes_cast_eq_zero (ns : List FileSystemNode) :
    ((sumSizes ns : ℚ) = 0) ↔ sumSizes ns = 0 := by
  exact_mod_cast Iff.rfl

theorem sumSizes_ne_zero_not_nil {ns : List FileSystemNode} (h : sumSizes ns ≠ 0) :
    ns.isEmpty = false := by
  cases ns with
  | nil => exact absurd rfl h
  | cons n rest => rfl

/-- Entry into the loop: with a non-degenerate group, `calculate_layout`
is the loop started at the bounds origin. -/
theorem calculate_layout_eq_layoutRow (ns : List FileSystemNode) (b : Rectangle)
    (v : Bool) (d : Nat) (h : sumSizes ns ≠ 0) :
    calculate_layout ns b v d = layoutRow (sumSizes ns) b v d ns b.x b.y := by
  rw [calculate_layout, sumSizes_ne_zero_not_nil h]
  simp only [Bool.false_eq_true, if_false]
  rw [if_neg]
  intro hq
  exact h ((sumSizes_cast_eq_zero ns).mp hq)

theorem calculate_layout_filter (ns : List FileSystemNode) (b : Rectangle)
    (v : Bool) (d : Nat) (h : sumSizes ns ≠ 0) :
    (calculate_layout ns b v d).filter (fun t => t.depth == d) =
      specRow (sumSizes ns) b v d ns (if v then b.x else b.y) := by
  rw [calculate_layout_eq_layoutRow ns b v d h]
  exact layoutRow_filter_depth ns (sumSizes ns) b v d b.x b.y
    (fun _ => rfl) (fun _ => rfl)

theorem calculate_layout_depth_le (ns : List FileSystemNode) (b : Rectangle)
    (v : Bool) (d : Nat) (t : TreemapNode) (ht : t ∈ calculate_layout ns b v d) :
    d ≤ t.depth := by
  rw [calculate_layout] at ht
  by_cases he : ns.isEmpty
  · simp [he] at ht
  · by_cases hz : (sumSizes ns : ℚ) = 0
    · simp [he, hz] at ht
    · simp only [he, hz, Bool.false_eq_true, if_false] at ht
      exact layoutRow_depth_le ns (sumSizes ns) b v d b.x b.y t ht

/-- C5: siblings are emitted in the tree's stored order with their own
name and size — no size-based reordering happens (the size-sorted copy the
source computes is dead code): at every level, the nodes emitted at that
level's depth carry, in order, exactly the (name, size) pairs of the
sibling group. -/
theorem C5_stored_sibling_order (ns : List FileSystemNode) (b : Rectangle)
    (v : Bool) (d : Nat) (h : sumSizes ns ≠ 0) :
    ((calculate_layout ns b v d).filter (fun t => t.depth == d)).map
        (fun t => (t.name, t.size)) =
      ns.map fun n => (n.name, n.size) := by
  rw [calculate_layout_filter ns b v d h]
  exact specRow_names ns (sumSizes ns) b v d _

/-- Witness for C5: three siblings whose sizes (1, 3, 2) are not in
size order are emitted in stored order. -/
theorem C5_witness :
    sumSizes [FileSystemNode.mk "a" 1 [], .mk "b" 3 [], .mk "c" 2 []] ≠ 0 ∧
      ((calculate_layout [FileSystemNode.mk "a" 1 [], .mk "b" 3 [], .mk "c" 2 []]
          ⟨0, 0, 100, 50⟩ true 1).filter (fun t => t.depth == 1)).map
          (fun t => (t.name, t.size)) =
        [FileSystemNode.mk "a" 1 [], .mk "b" 3 [], .mk "c" 2 []].map
          fun n => (n.name, n.size) :=
  ⟨by decide,
    C5_stored_sibling_order [FileSystemNode.mk "a" 1 [], .mk "b" 3 [], .mk "c" 2 []]
      ⟨0, 0, 100, 50⟩ true 1 (by decide)⟩

/-- C6: the public entry point lays out the root's children (never the
root itself: every emitted node is at depth 1 or deeper) at depth 1 with
vertical slicing; and within any non-degenerate sibling group the nodes
emitted at the group's depth form exactly the proportional row of the
spec: under vertical slicing width `bounds.width * size/total`, height
`bounds.height`, at a horizontal cursor starting at `bounds.x` advancing
by each width with `y` fixed at `bounds.y`; under horizontal slicing
symmetrically. -/
theorem C6_entry_and_slice_geometry (root : FileSystemNode) (b : Rectangle)
    (ns : List FileSystemNode) (bd : Rectangle) (v : Bool) (d : Nat)
    (h : sumSizes ns ≠ 0) :
    generate_treemap root b = calculate_layout root.children b true 1 ∧
      (∀ t ∈ generate_treemap root b, 1 ≤ t.depth) ∧
      (calculate_layout ns bd v d).filter (fun t => t.depth == d) =
        specRow (sumSizes ns) bd v d ns (if v then bd.x else bd.y) := by
  refine ⟨rfl, ?_, calculate_layout_filter ns bd v d h⟩
  intro t ht
  exact calculate_layout_depth_le root.children b true 1 t ht

/-- Witness for C6 at the spec's 30/20/10 example in a 100×100 bounds. -/
theorem C6_witness :
    sumSizes [FileSystemNode.mk "a" 30 [], .mk "b" 20 [], .mk "c" 10 []] ≠ 0 ∧
      (generate_treemap (FileSystemNode.mk "root" 60
            [.mk "a" 30 [], .mk "b" 20 [], .mk "c" 10 []]) ⟨0, 0, 100, 100⟩ =
          calculate_layout (FileSystemNode.mk "root" 60
            [.mk "a" 30 [], .mk "b" 20 [], .mk "c" 10 []]).children ⟨0, 0, 100, 100⟩ true 1 ∧
        (∀ t ∈ generate_treemap (FileSystemNode.mk "root" 60
            [.mk "a" 30 [], .mk "b" 20 [], .mk "c" 10 []]) ⟨0, 0, 100, 100⟩, 1 ≤ t.depth) ∧
        (calculate_layout [FileSystemNode.mk "a" 30 [], .mk "b" 20 [], .mk "c" 10 []]
            ⟨0, 0, 100, 100⟩ true 1).filter (fun t => t.depth == 1) =
          specRow (sumSizes [FileSystemNode.mk "a" 30 [], .mk "b" 20 [], .mk "c" 10 []])
            ⟨0, 0, 100, 100⟩ true 1 [FileSystemNode.mk "a" 30 [], .mk "b" 20 [], .mk "c" 10 []]
            (if true then (0 : ℚ) else 0)) :=
  ⟨by decide,
    C6_entry_and_slice_geometry (FileSystemNode.mk "root" 60
        [.mk "a" 30 [], .mk "b" 20 [], .mk "c" 10 []]) ⟨0, 0, 100, 100⟩
      [FileSystemNode.mk "a" 30 [], .mk "b" 20 [], .mk "c" 10 []]
      ⟨0, 0, 100, 100⟩ true 1 (by decide)⟩

/-- C8: the layout never fails and degenerate inputs are defined no-ops —
a childless root yields the empty sequence, and any sibling group whose
sizes sum to zero emits nothing and recurses no further (the zero total is
returned before any division). -/
theorem C8_degenerate_inputs (root : FileSystemNode) (b : Rectangle)
    (ns : List FileSystemNode) (bd : Rectangle) (v : Bool) (d : Nat)
    (h1 : root.children = []) (h2 : sumSizes ns = 0) :
    generate_treemap root b = [] ∧ calculate_layout ns bd v d = [] := by
  constructor
  · rw [generate_treemap, h1]
    rfl
  · rw [calculate_layout]
    by_cases he : ns.isEmpty
    · simp [he]
    · simp [he, (sumSizes_cast_eq_zero ns).mpr h2]

/-- Witness for C8: a childless root, and a group of two zero-size
entries. -/
theorem C8_witness :
    (FileSystemNode.mk "root" 7 []).children = [] ∧
      sumSizes [FileSystemNode.mk "a" 0 [], .mk "b" 0 []] = 0 ∧
      (generate_treemap (FileSystemNode.mk "root" 7 []) ⟨0, 0, 100, 100⟩ = [] ∧
        calculate_layout [FileSystemNode.mk "a" 0 [], .mk "b" 0 []]
          ⟨0, 0, 100, 100⟩ false 3 = []) :=
  ⟨rfl, by decide,
    C8_degenerate_inputs (FileSystemNode.mk "root" 7 []) ⟨0, 0, 100, 100⟩
      [FileSystemNode.mk "a" 0 [], .mk "b" 0 []] ⟨0, 0, 100, 100⟩ false 3 rfl (by decide)⟩

/-- C9: with a positive group total, the depth-1 rectangles (vertical
slicing) have widths exactly `bounds.width * size/total` in child order —
in particular within any tolerance of `1e-9` — and their widths sum to
`bounds.width` within `1e-9` (here exactly: the arithmetic is embedded
over exact rationals, so the floating-point drift the tolerance allows
for is zero). -/
theorem C9_proportional_widths (root : FileSystemNode) (b : Rectangle)
    (h : 0 < sumSizes root.children) :
    ((generate_treemap root b).filter (fun t => t.depth == 1)).map (fun t => t.rect.width) =
        root.children.map (fun n => b.width * ((n.size : ℚ) / (sumSizes root.children : ℚ))) ∧
      |(((generate_treemap root b).filter (fun t => t.depth == 1)).map
            (fun t => t.rect.width)).sum - b.width| ≤ 1 / 1000000000 := by
  have hne : sumSizes root.children ≠ 0 := h.ne'
  have hfil := calculate_layout_filter root.children b true 1 hne
  have hwid : ((generate_treemap root b).filter (fun t => t.depth == 1)).map
      (fun t => t.rect.width) =
      root.children.map fun n => b.width * ((n.size : ℚ) / (sumSizes root.children : ℚ)) := by
    show ((calculate_layout root.children b true 1).filter (fun t => t.depth == 1)).map
        (fun t => t.rect.width) = _
    rw [hfil]
    exact specRow_widths_vertical root.children (sumSizes root.children) b 1 _
  refine ⟨hwid, ?_⟩
  rw [hwid, sum_map_proportion, div_self (Nat.cast_ne_zero.mpr hne), mul_one]
  simp

/-- Witness for C9 at the spec's 30/20/10 example in a 100×100 bounds. -/
theorem C9_witness :
    0 < sumSizes [FileSystemNode.mk "a" 30 [], .mk "b" 20 [], .mk "c" 10 []] ∧
      (((generate_treemap (FileSystemNode.mk "root" 60
              [.mk "a" 30 [], .mk "b" 20 [], .mk "c" 10 []]) ⟨0, 0, 100, 100⟩).filter
            (fun t => t.depth == 1)).map (fun t => t.rect.width) =
          [FileSystemNode.mk "a" 30 [], .mk "b" 20 [], .mk "c" 10 []].map
            (fun n => (100 : ℚ) * ((n.size : ℚ) /
              (sumSizes [FileSystemNode.mk "a" 30 [], .mk "b" 20 [], .mk "c" 10 []] : ℚ))) ∧
        |(((generate_treemap (FileSystemNode.mk "root" 60
              [.mk "a" 30 [], .mk "b" 20 [], .mk "c" 10 []]) ⟨0, 0, 100, 100⟩).filter
            (fun t => t.depth == 1)).map (fun t => t.rect.width)).sum - 100| ≤ 1 / 1000000000) :=
  ⟨by decide,
    C9_proportional_widths (FileSystemNode.mk "root" 60
      [.mk "a" 30 [], .mk "b" 20 [], .mk "c" 10 []]) ⟨0, 0, 100, 100⟩ (by decide)⟩

theorem calculate_layout_mem_depthList (ns : List FileSystemNode) (b : Rectangle)
    (v : Bool) (d : Nat) (t : TreemapNode) (ht : t ∈ calculate_layout ns b v d) :
    (t.name, t.depth) ∈ depthList ns d := by
  rw [calculate_layout] at ht
  by_cases he : ns.isEmpty
  · simp [he] at ht
  · by_cases hz : (sumSizes ns : ℚ) = 0
    · simp [he, hz] at ht
    · simp only [he, hz, Bool.false_eq_true, if_false] at ht
      exact layoutRow_mem_depthList ns (sumSizes ns) b v d b.x b.y t ht

/-- C7: the slicing axis alternates strictly per recursion level — a
sibling positioned with axis `v` at depth `d` has its children laid out by
`calculate_layout` with the sibling's own rectangle as bounds, the
opposite axis `!v`, and depth `d + 1` — and every emitted node's depth is
the nesting level of a like-named node below the scan root. -/
theorem C7_axis_alternates_per_level (nm : String) (sz : Nat)
    (cs rest : List FileSystemNode) (total : ℚ) (b : Rectangle) (v : Bool)
    (d : Nat) (cx cy : ℚ) (root : FileSystemNode) (bb : Rectangle) :
    layoutRow total b v d (.mk nm sz cs :: rest) cx cy =
        ⟨sliceRect b v ((sz : ℚ) / total) cx cy, nm, sz, d⟩ ::
          (calculate_layout cs (sliceRect b v ((sz : ℚ) / total) cx cy) (!v) (d + 1) ++
            layoutRow total b v d rest (nextCx b v ((sz : ℚ) / total) cx)
              (nextCy b v ((sz : ℚ) / total) cy)) ∧
      ∀ t ∈ generate_treemap root bb, (t.name, t.depth) ∈ depthList root.children 1 := by
  constructor
  · simp only [layoutRow, calculate_layout]
  · intro t ht
    exact calculate_layout_mem_depthList root.children bb true 1 t ht

/-! ## C10: every emitted rectangle stays inside the bounds -/

theorem rectContains_trans (a m c : Rectangle)
    (h1 : rectContains a m) (h2 : rectContains m c) : rectContains a c := by
  obtain ⟨a1, a2, a3, a4⟩ := h1
  obtain ⟨b1, b2, b3, b4⟩ := h2
  exact ⟨le_trans a1 b1, le_trans a2 b2, le_trans b3 a3, le_trans b4 a4⟩

/-- The row invariant: the cursor sits inside the bounds and the extent
still to be laid out fits in what is left, so every emitted rectangle
(also from nested recursion) stays inside the bounds with non-negative
sides. -/
theorem layoutRow_contained :
    ∀ (ns : List FileSystemNode) (total : ℚ) (b : Rectangle) (v : Bool) (d : Nat) (cx cy : ℚ),
      0 < total → 0 ≤ b.width → 0 ≤ b.height →
      (v = true → b.x ≤ cx ∧ cx + b.width * ((sumSizes ns : ℚ) / total) ≤ b.x + b.width ∧
        cy = b.y) →
      (v = false → b.y ≤ cy ∧ cy + b.height * ((sumSizes ns : ℚ) / total) ≤ b.y + b.height ∧
        cx = b.x) →
      ∀ t ∈ layoutRow total b v d ns cx cy,
        rectContains b t.rect ∧ 0 ≤ t.rect.width ∧ 0 ≤ t.rect.height
  | [], total, b, v, d, cx, cy, _, _, _, _, _, t, ht => by simp [layoutRow] at ht
  | .mk nm sz cs :: rest, total, b, v, d, cx, cy, hpos, hw, hh, hv, hhf, t, ht => by
      have hq0 : (0 : ℚ) ≤ (sz : ℚ) / total := div_nonneg (Nat.cast_nonneg sz) hpos.le
      have hS0 : (0 : ℚ) ≤ (sumSizes rest : ℚ) / total :=
        div_nonneg (Nat.cast_nonneg _) hpos.le
      have hsplitW : b.width * ((sumSizes (FileSystemNode.mk nm sz cs :: rest) : ℚ) / total) =
          b.width * ((sz : ℚ) / total) + b.width * ((sumSizes rest : ℚ) / total) := by
        rw [sumSizes_cons]
        simp only [FileSystemNode.size]
        push_cast
        ring
      have hsplitH : b.height * ((sumSizes (FileSystemNode.mk nm sz cs :: rest) : ℚ) / total) =
          b.height * ((sz : ℚ) / total) + b.height * ((sumSizes rest : ℚ) / total) := by
        rw [sumSizes_cons]
        simp only [FileSystemNode.size]
        push_cast
        ring
      simp only [layoutRow, List.mem_cons, List.mem_append] at ht
      cases v with
      | true =>
          obtain ⟨h1, h2, h3⟩ := hv rfl
          subst h3
          rw [hsplitW] at h2
          have hW0 : (0 : ℚ) ≤ b.width * ((sz : ℚ) / total) := mul_nonneg hw hq0
          have hR0 : (0 : ℚ) ≤ b.width * ((sumSizes rest : ℚ) / total) := mul_nonneg hw hS0
          have hrx : sliceRect b true ((sz : ℚ) / total) cx b.y =
              ⟨cx, b.y, b.width * ((sz : ℚ) / total), b.height⟩ := rfl
          have hcont : rectContains b ⟨cx, b.y, b.width * ((sz : ℚ) / total), b.height⟩ :=
            ⟨h1, le_refl _, by linarith, by linarith⟩
          rcases ht with h | h | h
          · subst h
            rw [hrx]
            exact ⟨hcont, hW0, hh⟩
          · by_cases he : cs.isEmpty
            · simp [he] at h
            · by_cases hz : (sumSizes cs : ℚ) = 0
              · simp [he, hz] at h
              · simp only [he, hz, Bool.false_eq_true, if_false] at h
                rw [hrx] at h
                have hcz : 0 < (sumSizes cs : ℚ) :=
                  lt_of_le_of_ne (Nat.cast_nonneg _) (Ne.symm hz)
                have hrec := layoutRow_contained cs (sumSizes cs)
                  ⟨cx, b.y, b.width * ((sz : ℚ) / total), b.height⟩ false (d + 1)
                  cx b.y hcz hW0 hh
                  (fun hf => by simp at hf)
                  (fun _ => ⟨le_refl _, by rw [div_self hz, mul_one], rfl⟩)
                  t h
                exact ⟨rectContains_trans b _ t.rect hcont hrec.1, hrec.2⟩
          · have hrec := layoutRow_contained rest total b true d
              (nextCx b true ((sz : ℚ) / total) cx) (nextCy b true ((sz : ℚ) / total) b.y)
              hpos hw hh
              (fun _ => by
                refine ⟨?_, ?_, rfl⟩
                · show b.x ≤ cx + b.width * ((sz : ℚ) / total)
                  linarith
                · show cx + b.width * ((sz : ℚ) / total) +
                      b.width * ((sumSizes rest : ℚ) / total) ≤ b.x + b.width
                  linarith)
              (fun hf => by simp at hf)
              t h
            exact hrec
      | false =>
          obtain ⟨h1, h2, h3⟩ := hhf rfl
          subst h3
          rw [hsplitH] at h2
          have hW0 : (0 : ℚ) ≤ b.height * ((sz : ℚ) / total) := mul_nonneg hh hq0
          have hR0 : (0 : ℚ) ≤ b.height * ((sumSizes rest : ℚ) / total) := mul_nonneg hh hS0
          have hrx : sliceRect b false ((sz : ℚ) / total) b.x cy =
              ⟨b.x, cy, b.width, b.height * ((sz : ℚ) / total)⟩ := rfl
          have hcont : rectContains b ⟨b.x, cy, b.width, b.height * ((sz : ℚ) / total)⟩ :=
            ⟨le_refl _, h1, by linarith, by linarith⟩
          rcases ht with h | h | h
          · subst h
            rw [hrx]
            exact ⟨hcont, hw, hW0⟩
          · by_cases he : cs.isEmpty
            · simp [he] at h
            · by_cases hz : (sumSizes cs : ℚ) = 0
              · simp [he, hz] at h
              · simp only [he, hz, Bool.false_eq_true, if_false] at h
                rw [hrx] at h
                have hcz : 0 < (sumSizes cs : ℚ) :=
                  lt_of_le_of_ne (Nat.cast_nonneg _) (Ne.symm hz)
                have hrec := layoutRow_contained cs (sumSizes cs)
                  ⟨b.x, cy, b.width, b.height * ((sz : ℚ) / total)⟩ true (d + 1)
                  b.x cy hcz hw hW0
                  (fun _ => ⟨le_refl _, by rw [div_self hz, mul_one], rfl⟩)
                  (fun hf => by simp at hf)
                  t h
                exact ⟨rectContains_trans b _ t.rect hcont hrec.1, hrec.2⟩
          · have hrec := layoutRow_contained rest total b false d
              (nextCx b false ((sz : ℚ) / total) b.x) (nextCy b false ((sz : ℚ) / total) cy)
              hpos hw hh
              (fun hf => by simp at hf)
              (fun _ => by
                refine ⟨?_, ?_, rfl⟩
                · show b.y ≤ cy + b.height * ((sz : ℚ) / total)
                  linarith
                · show cy + b.height * ((sz : ℚ) / total) +
                      b.height * ((sumSizes rest : ℚ) / total) ≤ b.y + b.height
                  linarith)
              t h
            exact hrec

/-- C10: with a bounds of non-negative width and height, every rectangle
emitted by `generate_treemap` is contained in the supplied bounds and has
non-negative width and height (exact rational arithmetic). -/
theorem C10_rects_within_bounds (root : FileSystemNode) (b : Rectangle)
    (hw : 0 ≤ b.width) (hh : 0 ≤ b.height) :
    ∀ t ∈ generate_treemap root b,
      rectContains b t.rect ∧ 0 ≤ t.rect.width ∧ 0 ≤ t.rect.height := by
  intro t ht
  rw [generate_treemap, calculate_layout] at ht
  by_cases he : root.children.isEmpty
  · simp [he] at ht
  · by_cases hz : (sumSizes root.children : ℚ) = 0
    · simp [he, hz] at ht
    · simp only [he, hz, Bool.false_eq_true, if_false] at ht
      have hpos : 0 < (sumSizes root.children : ℚ) :=
        lt_of_le_of_ne (Nat.cast_nonneg _) (Ne.symm hz)
      exact layoutRow_contained root.children (sumSizes root.children) b true 1 b.x b.y
        hpos hw hh
        (fun _ => ⟨le_refl _, by rw [div_self hz, mul_one], rfl⟩)
        (fun hf => by simp at hf)
        t ht

/-- Witness for C10: the single emitted rectangle of a one-child scan of a
100×100 bounds lies inside the bounds with non-negative sides. -/
theorem C10_witness :
    rectContains ⟨0, 0, 100, 100⟩
        (TreemapNode.rect ⟨sliceRect ⟨0, 0, 100, 100⟩ true (((5 : Nat) : ℚ) /
          ((sumSizes [FileSystemNode.mk "a" 5 []] : Nat) : ℚ)) 0 0, "a", 5, 1⟩) ∧
      0 ≤ (TreemapNode.rect ⟨sliceRect ⟨0, 0, 100, 100⟩ true (((5 : Nat) : ℚ) /
          ((sumSizes [FileSystemNode.mk "a" 5 []] : Nat) : ℚ)) 0 0, "a", 5, 1⟩).width ∧
      0 ≤ (TreemapNode.rect ⟨sliceRect ⟨0, 0, 100, 100⟩ true (((5 : Nat) : ℚ) /
          ((sumSizes [FileSystemNode.mk "a" 5 []] : Nat) : ℚ)) 0 0, "a", 5, 1⟩).height :=
  C10_rects_within_bounds (FileSystemNode.mk "r" 5 [.mk "a" 5 []]) ⟨0, 0, 100, 100⟩
    (by decide) (by decide)
    ⟨sliceRect ⟨0, 0, 100, 100⟩ true (((5 : Nat) : ℚ) /
      ((sumSizes [FileSystemNode.mk "a" 5 []] : Nat) : ℚ)) 0 0, "a", 5, 1⟩
    (by simp [generate_treemap, calculate_layout, layoutRow, sumSizes,
      FileSystemNode.children, FileSystemNode.size])

end DiskScout
